import Mathlib

/-!
Verification of the kp article-harvesting pipeline.

Shallow embedding of the Python sources:
  * `src/kp/spiders/kp_articles.py`  (spider: pagination harvester + extractor)
  * `src/kp/pipelines.py`            (photo post-processor + Mongo storage sink)

External collaborators (Playwright page, aiohttp, PIL, MongoDB server) are
modelled by explicit environment values and outcome types; the control flow
of the repository's own code is translated function by function.
-/

namespace KP

/-! ## Whitespace normalization (`clean_text` in `parse_article`)

Python: `re.sub(r"\s+", " ", (s or "")).strip()`.
`collapseWs` models the regex substitution (each maximal run of whitespace
becomes one space); `trimWs` models `str.strip()`. -/

/-- Helper for `collapseWs`; the Bool flag records whether we are currently
inside a whitespace run whose single replacement space was already emitted. -/
def collapseWsAux : Bool → List Char → List Char
  | _, [] => []
  | inRun, c :: rest =>
    if c.isWhitespace then
      if inRun then collapseWsAux true rest
      else ' ' :: collapseWsAux true rest
    else c :: collapseWsAux false rest

/-- Model of `re.sub(r"\s+", " ", ·)` on a character list: every maximal
run of whitespace characters is replaced by a single space. -/
def collapseWs (l : List Char) : List Char :=
  collapseWsAux false l

/-- Drop the trailing run of whitespace characters (the right half of
`str.strip()`). -/
def dropTrailWs : List Char → List Char
  | [] => []
  | c :: rest =>
    if dropTrailWs rest = [] then (if c.isWhitespace then [] else [c])
    else c :: dropTrailWs rest

/-- Model of Python `str.strip()` on a character list: drop leading and
trailing whitespace. -/
def trimWs (l : List Char) : List Char :=
  dropTrailWs (l.dropWhile Char.isWhitespace)

/-- Model of Python `str.strip()` on strings. -/
def pyStrip (s : String) : String :=
  String.mk (trimWs s.toList)

/-- Model of the spider's `clean_text(s)`; the argument may be `None`
(Python `(s or "")` maps both `None` and `""` to `""`). -/
def clean_text (s : Option String) : String :=
  String.mk (trimWs (collapseWs (s.getD "").toList))

/-- `clean_text` applied to a plain (non-`None`) string. -/
def cleanS (s : String) : String :=
  clean_text (some s)

/-- Whether a character list starts with a whitespace character. -/
def headIsWs : List Char → Bool
  | [] => false
  | c :: _ => c.isWhitespace

/-- A character list is in normalized-whitespace form: every whitespace
character is a plain space, and no two adjacent characters are both
whitespace. On such lists `collapseWs` is the identity. -/
def wsGood : List Char → Bool
  | [] => true
  | c :: rest =>
    ((!c.isWhitespace || c = ' ') && !(c.isWhitespace && headIsWs rest))
      && wsGood rest

/-! ## Python helpers shared by the extractor -/

/-- Python truthiness of an optional string: `None` and `""` are falsy. -/
def truthy : Option String → Bool
  | none => false
  | some s => s ≠ ""

/-- Python `a or b` on optional strings: the second operand is returned
whenever the first is falsy. -/
def pyOr (a b : Option String) : Option String :=
  if truthy a then a else b

/-- Split a character list at every separator character (model of
`str.split(sep)` for a one-character separator and of
`re.split(r",|;|&", ·)`). Separators are dropped; empty pieces are kept. -/
def splitChars (p : Char → Bool) : List Char → List (List Char)
  | [] => [[]]
  | c :: rest =>
    match splitChars p rest with
    | [] => [[c]]
    | w :: ws => if p c then [] :: w :: ws else (c :: w) :: ws

/-- The separator set of `re.split(r",|;|&", author_meta)`. -/
def isAuthorSep (c : Char) : Bool :=
  c = ',' || c = ';' || c = '&'

/-- Model of `re.split(r",|;|&", s)`. -/
def pySplitAuthors (s : String) : List String :=
  (splitChars isAuthorSep s.toList).map String.mk

/-- Model of `str.split(",")`. -/
def pySplitComma (s : String) : List String :=
  (splitChars (fun c => c = ',') s.toList).map String.mk

/-- Helper for `dedupFirst`: drop elements already in `seen`. -/
def dedupFirstAux (seen : List String) : List String → List String
  | [] => []
  | x :: rest =>
    if x ∈ seen then dedupFirstAux seen rest
    else x :: dedupFirstAux (x :: seen) rest

/-- Model of Python `list(dict.fromkeys(l))`: deduplicate preserving the
first occurrence of each element. -/
def dedupFirst (l : List String) : List String :=
  dedupFirstAux [] l

/-! ## Extractor (`parse_article` in `kp_articles.py`)

The rendered document is modelled by the values the spider's XPath queries
return on it. `h1NormalizedSpace` is `normalize-space(//h1)`, which XPath
always evaluates to a string (possibly `""`), never to `None`; `.get()` on
the other queries returns `None` when nothing matches. -/

structure ArticleDoc where
  h1NormalizedSpace : String
  ogTitle : Option String
  metaDescription : Option String
  ogDescription : Option String
  articlePublishedTime : Option String
  timeDatetimeAttr : Option String
  ogImage : Option String
  metaKeywords : Option String
  tagLinkTexts : List String
  metaAuthor : Option String
  authorRegionTexts : List String
  contentTexts : List String
deriving Repr

/-- The item produced by the spider (`KpArticleItem` in `items.py`).
Optional fields are `Option`; `none` models Python `None`. -/
structure KpArticleItem where
  title : String
  description : String
  article_text : String
  publication_datetime : String
  header_photo_url : Option String
  header_photo_base64 : Option String
  keywords : List String
  authors : List String
  source_url : String
deriving DecidableEq, Repr

/-- `title = clean_text(xpath("normalize-space(//h1)").get() or og:title)`. -/
def extractTitle (d : ArticleDoc) : String :=
  clean_text (pyOr (some d.h1NormalizedSpace) d.ogTitle)

/-- `description = clean_text(meta[name=description] or og:description)`. -/
def extractDescription (d : ArticleDoc) : String :=
  clean_text (pyOr d.metaDescription d.ogDescription)

/-- `publication_datetime = clean_text(article:published_time or //time/@datetime)`. -/
def extractPublicationDatetime (d : ArticleDoc) : String :=
  clean_text (pyOr d.articlePublishedTime d.timeDatetimeAttr)

/-- `header_photo_url = clean_text(og:image) or None`. -/
def extractHeaderPhotoUrl (d : ArticleDoc) : Option String :=
  if clean_text d.ogImage ≠ "" then some (clean_text d.ogImage) else none

/-- Keywords: the `keywords` meta split on commas if truthy, else the texts
of tag links; each entry cleaned, empty entries dropped. -/
def extractKeywords (d : ArticleDoc) : List String :=
  if truthy d.metaKeywords then
    ((pySplitComma (d.metaKeywords.getD "")).map cleanS).filter (fun x => x ≠ "")
  else
    (d.tagLinkTexts.map cleanS).filter (fun x => x ≠ "")

/-- Authors: the `author` meta split on `,`/`;`/`&` if truthy (no dedup in
this branch), else all author-region texts cleaned, filtered and
deduplicated preserving first occurrence. -/
def extractAuthors (d : ArticleDoc) : List String :=
  if truthy d.metaAuthor then
    ((pySplitAuthors (d.metaAuthor.getD "")).map cleanS).filter (fun x => x ≠ "")
  else
    dedupFirst ((d.authorRegionTexts.map cleanS).filter (fun x => x ≠ ""))

/-- Article text: every kept content text node cleaned, empty lines
dropped, joined with newlines. -/
def extractArticleText (d : ArticleDoc) : String :=
  String.intercalate "\n" ((d.contentTexts.map cleanS).filter (fun x => x ≠ ""))

/-- `source_url = response.url.split("?")[0]`: the prefix before the first
question mark. -/
def extractSourceUrl (url : String) : String :=
  String.mk (url.toList.takeWhile (fun c => c ≠ '?'))

/-- Model of `parse_article`: the whole item yielded for one response. -/
def parse_article (url : String) (d : ArticleDoc) : KpArticleItem where
  title := extractTitle d
  description := extractDescription d
  article_text := extractArticleText d
  publication_datetime := extractPublicationDatetime d
  header_photo_url := extractHeaderPhotoUrl d
  header_photo_base64 := none
  keywords := extractKeywords d
  authors := extractAuthors d
  source_url := extractSourceUrl url

/-! ## Image post-processor (`PhotoDownloaderPipeline` in `pipelines.py`)

The pipeline's Python exceptions are modelled by `Except`; a `.error`
result of `photoProcessItem` is an exception propagating out of
`process_item` (Scrapy then drops the item). PIL and aiohttp are external:
image bytes are modelled as either decodable to an image (with a color
mode) or junk, and the JPEG codec by a stand-in byte function. -/

inductive PyErr
  | invalidUrlClient
  | clientTransport
  | unidentifiedImage
  | cannotWriteJpeg
deriving DecidableEq, Repr

/-- PIL color modes relevant to `compress_image`: `RGBA` and `P` are
converted to `RGB`; `RGB` and `L` save as JPEG; `LA` cannot be written as
JPEG and makes `img.save` raise. -/
inductive ImgMode
  | RGB
  | RGBA
  | P
  | L
  | LA
deriving DecidableEq, Repr

structure Img where
  mode : ImgMode
  pixels : List Nat
deriving DecidableEq, Repr

/-- Fetched body bytes: either decodable by `Image.open` or junk on which
it raises. -/
inductive ImageBytes
  | decodable (img : Img)
  | junk (raw : List Nat)
deriving DecidableEq, Repr

/-- Stand-in for the external JPEG encoder (`img.save(..., format="JPEG",
quality=q, optimize=True)`) on a mode it can encode; the exact bytes are
irrelevant to every claim, only that encoding succeeds deterministically. -/
def jpegEncodeBytes (quality : Nat) (i : Img) : List Nat :=
  quality % 256 :: i.pixels

/-- Model of `PhotoDownloaderPipeline.compress_image`: decode, convert
`RGBA`/`P` to `RGB`, re-encode as JPEG at the configured quality. A
`.error` is a PIL exception propagating out. -/
def compress_image (quality : Nat) (b : ImageBytes) : Except PyErr (List Nat) :=
  match b with
  | .junk _ => .error .unidentifiedImage
  | .decodable img =>
    let img2 := if img.mode = ImgMode.RGBA ∨ img.mode = ImgMode.P
      then Img.mk ImgMode.RGB img.pixels else img
    match img2.mode with
    | .RGB => .ok (jpegEncodeBytes quality img2)
    | .L => .ok (jpegEncodeBytes quality img2)
    | _ => .error .cannotWriteJpeg

/-- The base64 alphabet of `base64.b64encode`. -/
def b64Char (n : Nat) : Char :=
  ("ABCDEFGHIJKLMNOPQRSTUVWXYZabcdefghijklmnopqrstuvwxyz0123456789+/".toList).getD n 'A'

/-- Standard base64 of a byte list, three bytes at a time, with padding. -/
def b64encodeChars : List Nat → List Char
  | [] => []
  | [a] =>
    [b64Char (a % 256 / 4), b64Char (a % 256 % 4 * 16), '=', '=']
  | [a, b] =>
    [b64Char (a % 256 / 4), b64Char (a % 256 % 4 * 16 + b % 256 / 16),
     b64Char (b % 256 % 16 * 4), '=']
  | a :: b :: c :: rest =>
    b64Char (a % 256 / 4) :: b64Char (a % 256 % 4 * 16 + b % 256 / 16)
      :: b64Char (b % 256 % 16 * 4 + c % 256 / 64) :: b64Char (c % 256 % 64)
      :: b64encodeChars rest

/-- Model of `base64.b64encode(bs).decode("utf-8")`. -/
def b64encode (bs : List Nat) : String :=
  String.mk (b64encodeChars bs)

/-- Outcome of `session.get(url)` as seen by the pipeline: the URL is
structurally malformed (aiohttp raises `InvalidUrlClientError`), some other
transport error is raised, or a response with a status and body arrives. -/
inductive FetchResult
  | invalidUrl
  | transportError
  | response (status : Nat) (body : ImageBytes)
deriving Repr

/-- Model of `PhotoDownloaderPipeline._download_photo_to_base64`: returns
`""` on a non-200 status, the base64 text on success, and an exception
(`.error`) on a malformed URL, a transport error, or a PIL failure. -/
def download_photo_to_base64 (quality : Nat) (fr : FetchResult) : Except PyErr String :=
  match fr with
  | .invalidUrl => .error .invalidUrlClient
  | .transportError => .error .clientTransport
  | .response status body =>
    if status ≠ 200 then .ok ""
    else
      match compress_image quality body with
      | .error e => .error e
      | .ok bs => .ok (b64encode bs)

/-- Model of `PhotoDownloaderPipeline.process_item`. `fetch` gives the
outcome of the HTTP GET for each URL; only `InvalidUrlClientError` is
caught, every other exception propagates as `.error`. -/
def photoProcessItem (quality : Nat) (fetch : String → FetchResult)
    (item : KpArticleItem) : Except PyErr KpArticleItem :=
  if truthy item.header_photo_url then
    match download_photo_to_base64 quality (fetch (item.header_photo_url.getD "")) with
    | .error PyErr.invalidUrlClient =>
      .ok { item with header_photo_url := none, header_photo_base64 := none }
    | .error e => .error e
    | .ok s => .ok { item with header_photo_base64 := some s }
  else
    .ok { item with header_photo_base64 := none }

/-! ## Storage sink (`MongoPipeline` in `pipelines.py`)

A stored document is a finite map from field names to BSON values,
modelled as an association list with unique keys; the store is the list of
documents in the collection, which carries a unique index on
`source_url`. -/

inductive BsonValue
  | null
  | str (s : String)
  | strList (l : List String)
deriving DecidableEq, Repr

abbrev MongoDoc : Type := List (String × BsonValue)

abbrev MongoStore : Type := List MongoDoc

/-- Field lookup in a document. -/
def getField (d : MongoDoc) (k : String) : Option BsonValue :=
  match d.find? (fun kv => kv.1 = k) with
  | some kv => some kv.2
  | none => none

/-- Python `doc[k] = v`: overwrite in place if present, else append. -/
def setField : MongoDoc → String → BsonValue → MongoDoc
  | [], k, v => [(k, v)]
  | kv :: rest, k, v =>
    if kv.1 = k then (k, v) :: rest else kv :: setField rest k v

/-- Python `doc.setdefault(k, v)`: add only when the key is absent. -/
def setDefault (d : MongoDoc) (k : String) (v : BsonValue) : MongoDoc :=
  if (getField d k).isSome then d else d ++ [(k, v)]

/-- MongoDB `$set` with document `new` applied to document `old`: every
field of `new` is written into `old`; fields of `old` not named in `new`
are kept. -/
def applySet (old new : MongoDoc) : MongoDoc :=
  new.foldl (fun acc kv => setField acc kv.1 kv.2) old

/-- The association list has no repeated keys (a Python dict always
satisfies this). -/
def keysNodup (d : MongoDoc) : Prop :=
  (d.map Prod.fst).Nodup

/-- The value the unique index on `source_url` sees for a document
(MongoDB indexes a missing field as null). -/
def sourceKey (d : MongoDoc) : BsonValue :=
  (getField d "source_url").getD BsonValue.null

/-- `collection.insert_one(doc)` under the unique index on `source_url`:
raises `DuplicateKeyError` (the `.error`) when a stored document has the
same key value, else appends. -/
def insert_one (store : MongoStore) (d : MongoDoc) : Except Unit MongoStore :=
  if store.any (fun e => sourceKey e = sourceKey d) then .error ()
  else .ok (store ++ [d])

/-- `collection.update_one({"source_url": v}, {"$set": doc}, upsert=True)`:
apply `$set` to the first matching document; if none matches, insert the
filter fields overwritten by the `$set` document. -/
def update_one_set : MongoStore → BsonValue → MongoDoc → MongoStore
  | [], v, d => [applySet [("source_url", v)] d]
  | e :: rest, v, d =>
    if sourceKey e = v then applySet e d :: rest
    else e :: update_one_set rest v d

/-- The normalization and stamping `MongoPipeline.process_item` performs on
the incoming item before writing: default the optional photo fields to
null, then set `parsed_at_utc` (`now` stands for the wall-clock reading). -/
def stampDoc (item : MongoDoc) (now : String) : MongoDoc :=
  setField
    (setDefault (setDefault item "header_photo_url" BsonValue.null)
      "header_photo_base64" BsonValue.null)
    "parsed_at_utc" (BsonValue.str now)

/-- Model of `MongoPipeline.process_item`: try `insert_one`; on
`DuplicateKeyError` fall back to the `$set` upsert. The `.error` result is
the uncaught `KeyError` on `doc["source_url"]` when the item lacks that
field. -/
def mongoProcessItem (store : MongoStore) (item : MongoDoc) (now : String) :
    Except Unit MongoStore :=
  let doc := stampDoc item now
  match insert_one store doc with
  | .ok s2 => .ok s2
  | .error _ =>
    match getField doc "source_url" with
    | none => .error ()
    | some v => .ok (update_one_set store v doc)

/-! ## Pagination harvester (`parse_list` in `kp_articles.py`)

The Playwright page is external: one traversal is driven by a `ListingEnv`
giving, for each round, what the DOM contains and which page operations
raise. Operations the source wraps in `try/except` cannot raise in the
model (their failures are already swallowed); the unwrapped ones —
`eval_on_selector_all` in `collect_urls_from_dom`, `locator(...).count()`,
and `btn.count()` inside `click_show_more_and_wait` — can. -/

/-- `normalize_url(u) = (u or "").split("?")[0].strip()`. -/
def normalize_url (u : String) : String :=
  pyStrip (String.mk (u.toList.takeWhile (fun c => c ≠ '?')))

/-- `collect_urls_from_dom`: normalize every href found in the DOM and drop
the blank ones. -/
def collect_urls_from_dom (hrefs : List String) : List String :=
  (hrefs.map normalize_url).filter (fun u => u ≠ "")

/-- The shared accumulation loop (`for u in current: if u not in seen: ...`):
add unseen URLs to `seen` and `ordered` in DOM order, breaking once
`ordered` reaches the posts limit. -/
def addUrls (limit : Nat) : List String → Finset String → List String →
    Finset String × List String
  | [], seen, ordered => (seen, ordered)
  | u :: rest, seen, ordered =>
    if u ∈ seen then addUrls limit rest seen ordered
    else
      if limit ≤ (ordered ++ [u]).length then (insert u seen, ordered ++ [u])
      else addUrls limit rest (insert u seen) (ordered ++ [u])

/-- Outcome of `click_show_more_and_wait`: the source returns `False` when
the button is absent or the scroll fallback or the click fails, returns
`True` after a click (both wait steps swallow their own failures), and an
exception from the unwrapped `btn.count()` escapes. -/
inductive ClickOutcome
  | returnsFalse
  | returnsTrue
  | raises
deriving DecidableEq, Repr

/-- The external behaviour of one `while` round: whether the unwrapped
`locator(...).count()` raises, what the click attempt does, whether the
re-collect raises, and the hrefs in the DOM at re-collect time. -/
structure RoundEnv where
  anchorCountRaises : Bool
  click : ClickOutcome
  collectRaises : Bool
  domHrefs : List String
deriving Repr

structure HarvestState where
  seen : Finset String
  ordered : List String
  clicks : Nat
  stalls : Nat

/-- Why the `while` loop stopped. `fuelOut` is an artifact of the bounded
model and is proved unreachable for the fuel `parse_list` supplies. -/
inductive ExitReason
  | targetReached
  | controlGone
  | clickCeilingHit
  | stallLimitHit
  | fuelOut
deriving DecidableEq, Repr

inductive RoundResult
  | raised
  | broke (st : HarvestState)
  | continued (st : HarvestState)

/-- The `while` guard:
`len(ordered) < limit and clicks < MAX and stalls < STALL`. -/
def loopCond (limit maxClicks stallLim : Nat) (st : HarvestState) : Bool :=
  decide (st.ordered.length < limit) && decide (st.clicks < maxClicks)
    && decide (st.stalls < stallLim)

/-- One body of the `while` loop, given that the guard held. -/
def roundStep (limit : Nat) (env : RoundEnv) (st : HarvestState) : RoundResult :=
  if env.anchorCountRaises then .raised
  else
    match env.click with
    | .raises => .raised
    | .returnsFalse => .broke st
    | .returnsTrue =>
      if env.collectRaises then .raised
      else
        let p := addUrls limit (collect_urls_from_dom env.domHrefs) st.seen st.ordered
        .continued
          { seen := p.1
            ordered := p.2
            clicks := st.clicks + 1
            stalls := if p.2.length = st.ordered.length then st.stalls + 1 else 0 }

/-- Which guard conjunct failed when the loop exits normally. -/
def exitReasonOf (limit maxClicks : Nat) (st : HarvestState) : ExitReason :=
  if limit ≤ st.ordered.length then .targetReached
  else if maxClicks ≤ st.clicks then .clickCeilingHit
  else .stallLimitHit

/-- The `while` loop. `env st.clicks` is the round script for the round
about to run (rounds are numbered by the click counter). A `.error` result
is an exception propagating out of `parse_list`. -/
def runLoop (limit maxClicks stallLim : Nat) (env : Nat → RoundEnv) :
    Nat → HarvestState → Except Unit (HarvestState × ExitReason)
  | 0, st =>
    if loopCond limit maxClicks stallLim st then .ok (st, .fuelOut)
    else .ok (st, exitReasonOf limit maxClicks st)
  | fuel + 1, st =>
    if loopCond limit maxClicks stallLim st then
      match roundStep limit (env st.clicks) st with
      | .raised => .error ()
      | .broke st2 => .ok (st2, .controlGone)
      | .continued st2 => runLoop limit maxClicks stallLim env fuel st2
    else .ok (st, exitReasonOf limit maxClicks st)

/-- The external behaviour of one whole listing traversal: the initial DOM
collection (its `eval_on_selector_all` is unwrapped and can raise) and the
per-round scripts. -/
structure ListingEnv where
  initialCollectRaises : Bool
  initialHrefs : List String
  rounds : Nat → RoundEnv

/-- What one traversal did: the returned URL sequence or a propagated
exception, whether `page.close()` was reached, and why the loop exited. -/
structure ParseOutcome where
  result : Except Unit (List String)
  pageCloseCalled : Bool
  exitReason : Option ExitReason

/-- Model of `parse_list`: initial collection, the bounded click loop, the
`page.close()` that is executed only after the loop finishes normally, and
the final truncation `ordered_urls[:posts_limit]`. -/
def parse_list (limit maxClicks stallLim : Nat) (env : ListingEnv) : ParseOutcome :=
  if env.initialCollectRaises then
    { result := .error (), pageCloseCalled := false, exitReason := none }
  else
    let p := addUrls limit (collect_urls_from_dom env.initialHrefs) ∅ []
    match runLoop limit maxClicks stallLim env.rounds (maxClicks + 1)
        { seen := p.1, ordered := p.2, clicks := 0, stalls := 0 } with
    | .error _ => { result := .error (), pageCloseCalled := false, exitReason := none }
    | .ok (st, r) =>
      { result := .ok (st.ordered.take limit), pageCloseCalled := true,
        exitReason := some r }

/-- The harvester's dedup invariant: `ordered` has no duplicates and
`seen` holds exactly the elements of `ordered`. -/
def HInv (seen : Finset String) (ordered : List String) : Prop :=
  ordered.Nodup ∧ ∀ u, u ∈ seen ↔ u ∈ ordered

/-- Whether a traversal result is a normal return (no exception). -/
def isOkResult : Except Unit (List String) → Bool
  | .ok _ => true
  | .error _ => false

/-! ## Concrete inputs used by counterexamples and witnesses -/

/-- A traversal script whose first round raises in the unwrapped
`locator(...).count()` call. -/
def envRaise : ListingEnv :=
  ListingEnv.mk false ["https://www.kp.ru/online/news/1/"]
    (fun _ => RoundEnv.mk true ClickOutcome.returnsTrue false [])

/-- A traversal script where the reveal-more control disappears right
after the initial collection. -/
def envControlGone : ListingEnv :=
  ListingEnv.mk false ["https://www.kp.ru/online/news/1/"]
    (fun _ => RoundEnv.mk false ClickOutcome.returnsFalse false [])

/-- A round whose DOM holds no links at all: zero new unique locations. -/
def roundStall : RoundEnv :=
  RoundEnv.mk false ClickOutcome.returnsTrue false []

/-- The harvest state at the start of a traversal. -/
def st0 : HarvestState :=
  HarvestState.mk ∅ [] 0 0

/-- The harvest state after one stalled round from `st0`. -/
def st1 : HarvestState :=
  HarvestState.mk ∅ [] 1 1

/-- An article document on which every extraction source is empty. -/
def docEmpty : ArticleDoc :=
  ArticleDoc.mk "" none none none none none none none [] none [] []

/-- An article document whose `author` meta holds a duplicated author list. -/
def docAuthorMeta : ArticleDoc :=
  ArticleDoc.mk "" none none none none none none none [] (some "A,B,A,C") [] []

/-- An article document with duplicated author-region texts and no `author`
meta. -/
def docAuthorRegion : ArticleDoc :=
  ArticleDoc.mk "" none none none none none none none [] none
    ["A", "B", "A", "C"] []

/-- An item with a present, truthy header photo URL. -/
def itemPhoto : KpArticleItem :=
  KpArticleItem.mk "t" "d" "a" "p" (some "http://x/img.jpg") none [] [] "http://x/a"

/-- A stored document with a `legacy` field the newer parse does not
produce. -/
def docOld : MongoDoc :=
  [("source_url", BsonValue.str "u"), ("title", BsonValue.str "old"),
   ("legacy", BsonValue.str "x")]

/-- A newer record for the same `source_url`, with a different title and
without the `legacy` field. -/
def itemNew : MongoDoc :=
  [("source_url", BsonValue.str "u"), ("title", BsonValue.str "new")]

/-- What the store holds for `"u"` after writing `itemNew` over `docOld`:
the `$set` merge keeps the stale `legacy` field. -/
def docMerged : MongoDoc :=
  [("source_url", BsonValue.str "u"), ("title", BsonValue.str "new"),
   ("legacy", BsonValue.str "x"), ("header_photo_url", BsonValue.null),
   ("header_photo_base64", BsonValue.null), ("parsed_at_utc", BsonValue.str "T")]

/-! # Theorems

First the helper lemmas shared by the claim theorems, then one theorem
(plus witness or counterexample) per claim. -/

/-! ### Whitespace normalization -/

theorem space_isWhitespace : (' ' : Char).isWhitespace = true := by
  decide

theorem dropTrailWs_cons (c : Char) (rest : List Char) :
    dropTrailWs (c :: rest)
      = if dropTrailWs rest = [] then (if c.isWhitespace then [] else [c])
        else c :: dropTrailWs rest := rfl

theorem headIsWs_collapseWsAux_true (l : List Char) :
    headIsWs (collapseWsAux true l) = false := by
  induction l with
  | nil => rfl
  | cons c rest ih =>
    cases hc : c.isWhitespace
    · simp [collapseWsAux, hc, headIsWs]
    · simpa [collapseWsAux, hc] using ih

theorem wsGood_collapseWsAux (l : List Char) :
    ∀ b, wsGood (collapseWsAux b l) = true := by
  induction l with
  | nil => intro b; rfl
  | cons c rest ih =>
    intro b
    cases hc : c.isWhitespace
    · simp [collapseWsAux, hc, wsGood, ih false]
    · cases b
      · simp [collapseWsAux, hc, wsGood, space_isWhitespace,
          headIsWs_collapseWsAux_true, ih true]
      · simpa [collapseWsAux, hc] using ih true

theorem collapseWsAux_flag_irrel (l : List Char) (h : headIsWs l = false) :
    collapseWsAux true l = collapseWsAux false l := by
  cases l with
  | nil => rfl
  | cons c rest =>
    have hc : c.isWhitespace = false := h
    simp [collapseWsAux, hc]

theorem collapseWsAux_id_of_wsGood (l : List Char) (h : wsGood l = true) :
    collapseWsAux false l = l := by
  induction l with
  | nil => rfl
  | cons c rest ih =>
    have h' := h
    simp only [wsGood, Bool.and_eq_true] at h'
    obtain ⟨⟨h1, h2⟩, h3⟩ := h'
    cases hc : c.isWhitespace
    · simp [collapseWsAux, hc, ih h3]
    · have hcsp : c = ' ' := by
        rw [hc] at h1
        simpa using h1
      have hrest : headIsWs rest = false := by
        rw [hc] at h2
        simpa using h2
      simp [collapseWsAux, hc, collapseWsAux_flag_irrel rest hrest, ih h3, hcsp]

theorem collapseWs_id_of_wsGood (l : List Char) (h : wsGood l = true) :
    collapseWs l = l :=
  collapseWsAux_id_of_wsGood l h

theorem wsGood_dropWhile (l : List Char) (h : wsGood l = true) :
    wsGood (l.dropWhile Char.isWhitespace) = true := by
  induction l with
  | nil => exact h
  | cons c rest ih =>
    have h' := h
    simp only [wsGood, Bool.and_eq_true] at h'
    obtain ⟨⟨_, _⟩, h3⟩ := h'
    cases hc : c.isWhitespace
    · simpa [List.dropWhile_cons, hc] using h
    · simpa [List.dropWhile_cons, hc] using ih h3

theorem dropTrailWs_head (l : List Char) (x : Char) (xs : List Char)
    (h : dropTrailWs l = x :: xs) : headIsWs l = headIsWs (x :: xs) := by
  cases l with
  | nil => simp [dropTrailWs] at h
  | cons c rest =>
    cases hr : dropTrailWs rest with
    | nil =>
      cases hc : c.isWhitespace
      · simp only [dropTrailWs, hr, hc, if_true, if_false, Bool.false_eq_true,
          ite_self] at h
        have hx : c = x := by
          simpa using congrArg (fun t => t.headD c) h
        subst hx
        rfl
      · simp [dropTrailWs, hr, hc] at h
    | cons y ys =>
      simp only [dropTrailWs, hr] at h
      have hx : c = x := by
        simpa using congrArg (fun t => t.headD c) h
      subst hx
      rfl

theorem wsGood_dropTrailWs (l : List Char) (h : wsGood l = true) :
    wsGood (dropTrailWs l) = true := by
  induction l with
  | nil => exact h
  | cons c rest ih =>
    have h' := h
    simp only [wsGood, Bool.and_eq_true] at h'
    obtain ⟨⟨h1, h2⟩, h3⟩ := h'
    cases hr : dropTrailWs rest with
    | nil =>
      cases hc : c.isWhitespace
      · simp [dropTrailWs, hr, hc, wsGood, headIsWs]
      · simp [dropTrailWs, hr, hc, wsGood]
    | cons y ys =>
      have hhead : headIsWs rest = headIsWs (y :: ys) := dropTrailWs_head rest y ys hr
      have hgood : wsGood (y :: ys) = true := by
        rw [← hr]; exact ih h3
      have hstep : wsGood (c :: y :: ys) = true := by
        show (((!c.isWhitespace || c = ' ') && !(c.isWhitespace && headIsWs (y :: ys)))
          && wsGood (y :: ys)) = true
        rw [← hhead, hgood, h1, h2]
        rfl
      simpa [dropTrailWs, hr] using hstep

theorem headIsWs_dropWhile (l : List Char) :
    headIsWs (l.dropWhile Char.isWhitespace) = false := by
  induction l with
  | nil => rfl
  | cons c rest ih =>
    cases hc : c.isWhitespace
    · simp [List.dropWhile_cons, hc, headIsWs]
    · simpa [List.dropWhile_cons, hc] using ih

theorem dropWhile_id_of_head (l : List Char) (h : headIsWs l = false) :
    l.dropWhile Char.isWhitespace = l := by
  cases l with
  | nil => rfl
  | cons c rest =>
    have hc : c.isWhitespace = false := h
    simp [List.dropWhile_cons, hc]

theorem dropTrailWs_idem (l : List Char) :
    dropTrailWs (dropTrailWs l) = dropTrailWs l := by
  induction l with
  | nil => rfl
  | cons c rest ih =>
    cases hr : dropTrailWs rest with
    | nil =>
      cases hc : c.isWhitespace
      · simp [dropTrailWs, hr, hc]
      · simp [dropTrailWs, hr, hc]
    | cons y ys =>
      have hys : dropTrailWs (y :: ys) = y :: ys := by
        rw [← hr, ih, hr]
      have e : dropTrailWs (c :: rest) = c :: y :: ys := by
        simp [dropTrailWs, hr]
      rw [e, dropTrailWs_cons, hys]
      simp

theorem trimWs_idem (l : List Char) : trimWs (trimWs l) = trimWs l := by
  unfold trimWs
  have hm : headIsWs (l.dropWhile Char.isWhitespace) = false := headIsWs_dropWhile l
  cases hr : dropTrailWs (l.dropWhile Char.isWhitespace) with
  | nil => simp [List.dropWhile_nil, dropTrailWs]
  | cons x xs =>
    have hhead : headIsWs (x :: xs) = false := by
      rw [← dropTrailWs_head _ x xs hr]; exact hm
    rw [dropWhile_id_of_head _ hhead, ← hr, dropTrailWs_idem, hr]

theorem wsGood_trimWs_collapseWs (l : List Char) :
    wsGood (trimWs (collapseWs l)) = true :=
  wsGood_dropTrailWs _ (wsGood_dropWhile _ (wsGood_collapseWsAux l false))

/-- C10: the whitespace normalization `clean_text` (collapse every run of
whitespace to one space, then strip) is idempotent: applying it to its own
output returns that output unchanged. -/
theorem clean_text_idempotent (s : Option String) :
    clean_text (some (clean_text s)) = clean_text s := by
  show String.mk (trimWs (collapseWs (trimWs (collapseWs ((s.getD "").toList))))) =
    String.mk (trimWs (collapseWs ((s.getD "").toList)))
  rw [collapseWs_id_of_wsGood _ (wsGood_trimWs_collapseWs _), trimWs_idem]

/-! ### Extractor -/

theorem truthy_false_clean (o : Option String) (h : truthy o = false) :
    clean_text o = "" := by
  cases o with
  | none => decide
  | some s =>
    have hs : s = "" := by simpa [truthy] using h
    subst hs
    decide

theorem clean_filter_nil (l : List String) (h : ∀ x ∈ l, cleanS x = "") :
    (l.map cleanS).filter (fun x => x ≠ "") = [] := by
  rw [List.filter_eq_nil_iff]
  intro a ha
  obtain ⟨x, hx, rfl⟩ := List.mem_map.mp ha
  simp [h x hx]

theorem dedupFirstAux_spec (l : List String) :
    ∀ seen, (dedupFirstAux seen l).Nodup ∧ ∀ x ∈ dedupFirstAux seen l, x ∉ seen := by
  induction l with
  | nil => intro seen; simp [dedupFirstAux]
  | cons x rest ih =>
    intro seen
    by_cases hx : x ∈ seen
    · simpa [dedupFirstAux, hx] using ih seen
    · obtain ⟨ihn, ihm⟩ := ih (x :: seen)
      refine ⟨?_, ?_⟩
      · simp only [dedupFirstAux, if_neg hx, List.nodup_cons]
        exact ⟨fun hmem => (ihm x hmem) (List.mem_cons_self x seen), ihn⟩
      · intro y hy
        simp only [dedupFirstAux, if_neg hx, List.mem_cons] at hy
        rcases hy with rfl | hy
        · exact hx
        · exact fun hys => (ihm y hy) (List.mem_cons_of_mem x hys)

theorem dedupFirst_nodup (l : List String) : (dedupFirst l).Nodup :=
  (dedupFirstAux_spec l []).1

/-- C8: each extracted field with a fallback chain uses the secondary
source when the primary is empty or absent, and degrades to the empty
string (text fields) or the empty list (list fields) when every source in
the chain is empty — never to null. -/
theorem extractor_fallback_chains (d : ArticleDoc) :
    (d.h1NormalizedSpace = "" → extractTitle d = clean_text d.ogTitle)
    ∧ (d.h1NormalizedSpace = "" → truthy d.ogTitle = false → extractTitle d = "")
    ∧ (truthy d.metaDescription = false →
        extractDescription d = clean_text d.ogDescription)
    ∧ (truthy d.metaDescription = false → truthy d.ogDescription = false →
        extractDescription d = "")
    ∧ (truthy d.articlePublishedTime = false →
        extractPublicationDatetime d = clean_text d.timeDatetimeAttr)
    ∧ (truthy d.articlePublishedTime = false → truthy d.timeDatetimeAttr = false →
        extractPublicationDatetime d = "")
    ∧ (truthy d.metaKeywords = false →
        extractKeywords d = (d.tagLinkTexts.map cleanS).filter (fun x => x ≠ ""))
    ∧ (truthy d.metaKeywords = false → (∀ x ∈ d.tagLinkTexts, cleanS x = "") →
        extractKeywords d = [])
    ∧ (truthy d.metaAuthor = false →
        extractAuthors d
          = dedupFirst ((d.authorRegionTexts.map cleanS).filter (fun x => x ≠ "")))
    ∧ (truthy d.metaAuthor = false → (∀ x ∈ d.authorRegionTexts, cleanS x = "") →
        extractAuthors d = []) := by
  refine ⟨?_, ?_, ?_, ?_, ?_, ?_, ?_, ?_, ?_, ?_⟩
  · intro h1
    simp [extractTitle, pyOr, truthy, h1]
  · intro h1 h2
    rw [show extractTitle d = clean_text d.ogTitle by
      simp [extractTitle, pyOr, truthy, h1]]
    exact truthy_false_clean _ h2
  · intro h1
    simp [extractDescription, pyOr, h1]
  · intro h1 h2
    rw [show extractDescription d = clean_text d.ogDescription by
      simp [extractDescription, pyOr, h1]]
    exact truthy_false_clean _ h2
  · intro h1
    simp [extractPublicationDatetime, pyOr, h1]
  · intro h1 h2
    rw [show extractPublicationDatetime d = clean_text d.timeDatetimeAttr by
      simp [extractPublicationDatetime, pyOr, h1]]
    exact truthy_false_clean _ h2
  · intro h1
    simp [extractKeywords, h1]
  · intro h1 h2
    rw [show extractKeywords d = (d.tagLinkTexts.map cleanS).filter (fun x => x ≠ "") by
      simp [extractKeywords, h1]]
    exact clean_filter_nil _ h2
  · intro h1
    simp [extractAuthors, h1]
  · intro h1 h2
    rw [show extractAuthors d
        = dedupFirst ((d.authorRegionTexts.map cleanS).filter (fun x => x ≠ "")) by
      simp [extractAuthors, h1]]
    rw [clean_filter_nil _ h2]
    rfl

/-- Witness for C8: on a document where every source is empty, the text
fields are the empty string and the list fields the empty list. -/
theorem extractor_fallback_chains_witness :
    extractTitle docEmpty = "" ∧ extractDescription docEmpty = ""
      ∧ extractPublicationDatetime docEmpty = ""
      ∧ extractKeywords docEmpty = [] ∧ extractAuthors docEmpty = [] := by
  have h := extractor_fallback_chains docEmpty
  exact ⟨h.2.1 rfl rfl, h.2.2.2.1 rfl rfl, h.2.2.2.2.2.1 rfl rfl,
    h.2.2.2.2.2.2.2.1 rfl (by simp [docEmpty]),
    h.2.2.2.2.2.2.2.2.2 rfl (by simp [docEmpty])⟩

/-- C9 counterexample: when the `author` meta is present, `parse_article`
splits it without deduplication, so a duplicated author in the meta content
stays duplicated in the record. -/
theorem authors_meta_branch_keeps_duplicates :
    extractAuthors docAuthorMeta = ["A", "B", "A", "C"]
      ∧ ¬ (extractAuthors docAuthorMeta).Nodup := by
  constructor
  · decide
  · decide

/-- C9 (amended): only the author-region fallback branch deduplicates
preserving first occurrence (in particular region texts A,B,A,C produce
A,B,C, and that branch never repeats an author); the `author`-meta branch
splits without deduplication. -/
theorem authors_dedup_region_branch (d : ArticleDoc)
    (hmeta : truthy d.metaAuthor = false) :
    extractAuthors d
      = dedupFirst ((d.authorRegionTexts.map cleanS).filter (fun x => x ≠ ""))
    ∧ (extractAuthors d).Nodup
    ∧ (d.authorRegionTexts = ["A", "B", "A", "C"] →
        extractAuthors d = ["A", "B", "C"]) := by
  have he : extractAuthors d
      = dedupFirst ((d.authorRegionTexts.map cleanS).filter (fun x => x ≠ "")) := by
    simp [extractAuthors, hmeta]
  refine ⟨he, ?_, ?_⟩
  · rw [he]
    exact dedupFirst_nodup _
  · intro hreg
    rw [he, hreg]
    decide

/-- Witness for the amended C9 at a concrete document. -/
theorem authors_dedup_region_branch_witness :
    extractAuthors docAuthorRegion = ["A", "B", "C"] :=
  (authors_dedup_region_branch docAuthorRegion rfl).2.2 rfl

/-! ### Image post-processor -/

theorem truthy_some_of_ne (url : String) (hne : url ≠ "") :
    truthy (some url) = true := by
  simp [truthy, hne]

/-- C2 counterexample: on a non-success fetch status the pipeline stores
the empty string in `header_photo_base64`, not null. -/
theorem photo_status_failure_not_null_cex :
    photoProcessItem 35 (fun _ => FetchResult.response 404 (ImageBytes.junk []))
        itemPhoto
      = Except.ok { itemPhoto with header_photo_base64 := some "" }
    ∧ (some "" : Option String) ≠ none := by
  exact ⟨rfl, by decide⟩

/-- C2 (amended): with a present header photo URL, a non-success fetch
status sets `header_photo_base64` to the empty string (a falsy, non-null
value) and leaves `header_photo_url` and every other field unchanged; a
structurally malformed URL sets both photo fields to null and leaves every
other field unchanged. -/
theorem photo_fetch_degrades (quality : Nat) (fetch : String → FetchResult)
    (item : KpArticleItem) (url : String)
    (hurl : item.header_photo_url = some url) (hne : url ≠ "") :
    (∀ status body, fetch url = FetchResult.response status body → status ≠ 200 →
        photoProcessItem quality fetch item
          = .ok { item with header_photo_base64 := some "" })
    ∧ (fetch url = FetchResult.invalidUrl →
        photoProcessItem quality fetch item
          = .ok { item with header_photo_url := none, header_photo_base64 := none }) := by
  have ht : truthy (some url) = true := truthy_some_of_ne url hne
  constructor
  · intro status body hf hstatus
    simp [photoProcessItem, ht, hurl, hf, download_photo_to_base64, hstatus]
  · intro hf
    simp [photoProcessItem, ht, hurl, hf, download_photo_to_base64]

/-- Witness for the amended C2 at a concrete item and fetch outcome. -/
theorem photo_fetch_degrades_witness :
    photoProcessItem 35 (fun _ => FetchResult.response 500 (ImageBytes.junk []))
        itemPhoto
      = .ok { itemPhoto with header_photo_base64 := some "" } :=
  (photo_fetch_degrades 35 _ itemPhoto "http://x/img.jpg" rfl (by decide)).1
    500 (ImageBytes.junk []) rfl (by decide)

/-- C3 counterexample: undecodable image bytes under a success status make
the post-processing step raise (the item is not returned), refuting
"never raises". -/
theorem photo_decode_failure_raises_cex :
    photoProcessItem 35 (fun _ => FetchResult.response 200 (ImageBytes.junk [1, 2]))
        itemPhoto
      = Except.error PyErr.unidentifiedImage := by
  rfl

/-- C3 (amended): only the malformed-URL and non-success-status failure
modes degrade to a record with no encoded photo; a fetch transport error,
undecodable image bytes, or a re-encode failure raises an error out of the
step and the record is not returned. -/
theorem photo_unhandled_failures (quality : Nat) (fetch : String → FetchResult)
    (item : KpArticleItem) (url : String)
    (hurl : item.header_photo_url = some url) (hne : url ≠ "") :
    (fetch url = FetchResult.transportError →
        photoProcessItem quality fetch item = .error PyErr.clientTransport)
    ∧ (∀ raw, fetch url = FetchResult.response 200 (ImageBytes.junk raw) →
        photoProcessItem quality fetch item = .error PyErr.unidentifiedImage)
    ∧ (∀ px, fetch url
          = FetchResult.response 200 (ImageBytes.decodable (Img.mk ImgMode.LA px)) →
        photoProcessItem quality fetch item = .error PyErr.cannotWriteJpeg)
    ∧ (fetch url = FetchResult.invalidUrl →
        photoProcessItem quality fetch item
          = .ok { item with header_photo_url := none, header_photo_base64 := none })
    ∧ (∀ status body, fetch url = FetchResult.response status body → status ≠ 200 →
        photoProcessItem quality fetch item
          = .ok { item with header_photo_base64 := some "" }) := by
  have ht : truthy (some url) = true := truthy_some_of_ne url hne
  refine ⟨?_, ?_, ?_, ?_, ?_⟩
  · intro hf
    simp [photoProcessItem, ht, hurl, hf, download_photo_to_base64]
  · intro raw hf
    simp [photoProcessItem, ht, hurl, hf, download_photo_to_base64, compress_image]
  · intro px hf
    simp [photoProcessItem, ht, hurl, hf, download_photo_to_base64, compress_image]
  · intro hf
    simp [photoProcessItem, ht, hurl, hf, download_photo_to_base64]
  · intro status body hf hstatus
    simp [photoProcessItem, ht, hurl, hf, download_photo_to_base64, hstatus]

/-- Witness for the amended C3: a transport error propagates out of the
step at a concrete item. -/
theorem photo_unhandled_failures_witness :
    photoProcessItem 35 (fun _ => FetchResult.transportError) itemPhoto
      = .error PyErr.clientTransport :=
  (photo_unhandled_failures 35 _ itemPhoto "http://x/img.jpg" rfl (by decide)).1 rfl

/-! ### Storage sink -/

theorem getField_cons (a : String × BsonValue) (t : MongoDoc) (k : String) :
    getField (a :: t) k = if a.1 = k then some a.2 else getField t k := by
  by_cases h : a.1 = k <;> simp [getField, List.find?_cons, h]

theorem getField_setField_self (d : MongoDoc) (k : String) (v : BsonValue) :
    getField (setField d k v) k = some v := by
  induction d with
  | nil => simp [setField, getField_cons]
  | cons a t ih =>
    by_cases ha : a.1 = k
    · simp [setField, ha, getField_cons]
    · simp [setField, ha, getField_cons, ih]

theorem getField_setField_ne (d : MongoDoc) (k : String) (v : BsonValue)
    (k2 : String) (h : k ≠ k2) :
    getField (setField d k v) k2 = getField d k2 := by
  induction d with
  | nil => simp [setField, getField_cons, h, getField]
  | cons a t ih =>
    by_cases ha : a.1 = k
    · simp [setField, ha, getField_cons, h]
    · simp [setField, ha, getField_cons, ih]

theorem getField_append_single_ne (d : MongoDoc) (k : String) (v : BsonValue)
    (k2 : String) (h : k ≠ k2) :
    getField (d ++ [(k, v)]) k2 = getField d k2 := by
  induction d with
  | nil => simp [getField_cons, h, getField]
  | cons a t ih =>
    by_cases ha : a.1 = k2 <;> simp [getField_cons, ha, ih]

theorem getField_setDefault_ne (d : MongoDoc) (k : String) (v : BsonValue)
    (k2 : String) (h : k ≠ k2) :
    getField (setDefault d k v) k2 = getField d k2 := by
  unfold setDefault
  split
  · rfl
  · exact getField_append_single_ne d k v k2 h

theorem getField_stampDoc_source (item : MongoDoc) (now : String) :
    getField (stampDoc item now) "source_url" = getField item "source_url" := by
  unfold stampDoc
  rw [getField_setField_ne _ _ _ _ (by decide),
    getField_setDefault_ne _ _ _ _ (by decide),
    getField_setDefault_ne _ _ _ _ (by decide)]

theorem mem_keys_setField (d : MongoDoc) (k : String) (v : BsonValue)
    (x : String) :
    x ∈ (setField d k v).map Prod.fst ↔ x ∈ d.map Prod.fst ∨ x = k := by
  induction d with
  | nil => simp [setField]
  | cons a t ih =>
    by_cases ha : a.1 = k
    · subst ha
      simp [setField]
      tauto
    · simp [setField, ha, ih]
      tauto

theorem keysNodup_setField (d : MongoDoc) (k : String) (v : BsonValue)
    (h : keysNodup d) : keysNodup (setField d k v) := by
  induction d with
  | nil => simp [setField, keysNodup]
  | cons a t ih =>
    unfold keysNodup at h
    simp only [List.map_cons, List.nodup_cons] at h
    obtain ⟨hmem, hnd⟩ := h
    by_cases ha : a.1 = k
    · unfold keysNodup
      simp only [setField, if_pos ha, List.map_cons, List.nodup_cons]
      rw [← ha]
      exact ⟨hmem, hnd⟩
    · unfold keysNodup
      simp only [setField, if_neg ha, List.map_cons, List.nodup_cons]
      refine ⟨?_, ih hnd⟩
      rw [mem_keys_setField]
      push_neg
      exact ⟨hmem, ha⟩

theorem getField_none_iff (d : MongoDoc) (k : String) :
    getField d k = none ↔ k ∉ d.map Prod.fst := by
  induction d with
  | nil => simp [getField]
  | cons a t ih =>
    rw [getField_cons]
    by_cases ha : a.1 = k
    · simp only [if_pos ha, List.map_cons, List.mem_cons]
      constructor
      · intro h
        exact absurd h (by simp)
      · intro h
        exact absurd (Or.inl ha.symm) h
    · simp only [if_neg ha, List.map_cons, List.mem_cons]
      rw [ih]
      constructor
      · intro h hk
        rcases hk with hk | hk
        · exact ha hk.symm
        · exact h hk
      · intro h hk
        exact h (Or.inr hk)

theorem keysNodup_setDefault (d : MongoDoc) (k : String) (v : BsonValue)
    (h : keysNodup d) : keysNodup (setDefault d k v) := by
  unfold setDefault
  split
  · exact h
  · rename_i hnotsome
    unfold keysNodup
    rw [List.map_append, List.nodup_append]
    refine ⟨h, by simp, ?_⟩
    intro x hx
    simp only [List.map_cons, List.map_nil, List.mem_singleton]
    intro hxk
    have hnone : getField d k = none := by
      cases hg : getField d k with
      | none => rfl
      | some w => exact absurd (by rw [hg]; rfl) hnotsome
    exact (getField_none_iff d k).mp hnone (hxk ▸ hx)

theorem keysNodup_stampDoc (item : MongoDoc) (now : String)
    (h : keysNodup item) : keysNodup (stampDoc item now) :=
  keysNodup_setField _ _ _
    (keysNodup_setDefault _ _ _ (keysNodup_setDefault _ _ _ h))

theorem applySet_nil (old : MongoDoc) : applySet old [] = old := rfl

theorem applySet_cons (old : MongoDoc) (a : String × BsonValue) (t : MongoDoc) :
    applySet old (a :: t) = applySet (setField old a.1 a.2) t := rfl

theorem getField_applySet_not_mem (new : MongoDoc) :
    ∀ old k, k ∉ new.map Prod.fst →
      getField (applySet old new) k = getField old k := by
  induction new with
  | nil => intro old k _; rfl
  | cons a t ih =>
    intro old k hk
    simp only [List.map_cons, List.mem_cons, not_or] at hk
    rw [applySet_cons, ih _ k hk.2,
      getField_setField_ne _ _ _ _ (fun h => hk.1 h.symm)]

theorem getField_applySet_mem (new : MongoDoc) :
    ∀ old k w, keysNodup new → getField new k = some w →
      getField (applySet old new) k = some w := by
  induction new with
  | nil => intro old k w _ h; simp [getField] at h
  | cons a t ih =>
    intro old k w hnd h
    unfold keysNodup at hnd
    simp only [List.map_cons, List.nodup_cons] at hnd
    obtain ⟨hmem, hnd_t⟩ := hnd
    rw [getField_cons] at h
    by_cases ha : a.1 = k
    · rw [if_pos ha] at h
      cases h
      rw [applySet_cons, getField_applySet_not_mem t _ k (ha ▸ hmem), ← ha]
      exact getField_setField_self old a.1 a.2
    · rw [if_neg ha] at h
      rw [applySet_cons]
      exact ih _ k w hnd_t h

theorem update_one_set_split (pre post : MongoStore) (old d : MongoDoc)
    (v : BsonValue) (hpre : ∀ e ∈ pre, sourceKey e ≠ v) (hold : sourceKey old = v) :
    update_one_set (pre ++ old :: post) v d = pre ++ applySet old d :: post := by
  induction pre with
  | nil => simp [update_one_set, hold]
  | cons e t ih =>
    have hne : sourceKey e ≠ v := hpre e (List.mem_cons_self e t)
    simp only [List.cons_append, update_one_set, if_neg hne, List.append_eq]
    rw [ih (fun x hx => hpre x (List.mem_cons_of_mem e hx))]

theorem insert_one_dup (store : MongoStore) (d e : MongoDoc)
    (he : e ∈ store) (hk : sourceKey e = sourceKey d) :
    insert_one store d = .error () := by
  unfold insert_one
  rw [if_pos]
  rw [List.any_eq_true]
  exact ⟨e, he, by simp [hk]⟩

/-- C1 counterexample: on a `source_url` conflict the sink runs a `$set`
update, which is a partial merge — a field present only in the previously
stored document (`legacy`) survives the write with its old value, although
the newest parse does not contain it. -/
theorem storage_conflict_keeps_stale_field_cex :
    mongoProcessItem [docOld] itemNew "T" = Except.ok [docMerged]
    ∧ getField docMerged "legacy" = some (BsonValue.str "x")
    ∧ getField (stampDoc itemNew "T") "legacy" = none := by
  refine ⟨rfl, by decide, by decide⟩

/-- C1 (amended): on a uniqueness conflict the sink resolves via a `$set`
update-upsert: afterwards exactly one document exists for that
`source_url`, and every field present in the newly stamped record carries
the new value — but fields present only in the old document are retained
(partial merge, not a full-document replace). -/
theorem storage_conflict_set_merge (pre post : MongoStore) (old item : MongoDoc)
    (now : String) (v : BsonValue)
    (hitem : keysNodup item)
    (hurl : getField item "source_url" = some v)
    (hold : sourceKey old = v)
    (hpre : ∀ e ∈ pre, sourceKey e ≠ v)
    (hpost : ∀ e ∈ post, sourceKey e ≠ v) :
    mongoProcessItem (pre ++ old :: post) item now
      = .ok (pre ++ applySet old (stampDoc item now) :: post)
    ∧ (pre ++ applySet old (stampDoc item now) :: post).countP
        (fun e => sourceKey e = v) = 1
    ∧ (∀ k w, getField (stampDoc item now) k = some w →
        getField (applySet old (stampDoc item now)) k = some w)
    ∧ (∀ k, k ∉ (stampDoc item now).map Prod.fst →
        getField (applySet old (stampDoc item now)) k = getField old k) := by
  have hnd : keysNodup (stampDoc item now) := keysNodup_stampDoc item now hitem
  have hsrc : getField (stampDoc item now) "source_url" = some v := by
    rw [getField_stampDoc_source]; exact hurl
  have hkey : sourceKey (stampDoc item now) = v := by
    unfold sourceKey; rw [hsrc]; rfl
  have hmerged_key : sourceKey (applySet old (stampDoc item now)) = v := by
    unfold sourceKey
    rw [getField_applySet_mem _ old _ v hnd hsrc]
    rfl
  refine ⟨?_, ?_, ?_, ?_⟩
  · have hins : insert_one (pre ++ old :: post) (stampDoc item now) = .error () :=
      insert_one_dup _ _ old (by simp) (hold.trans hkey.symm)
    simp only [mongoProcessItem, hins, hsrc]
    rw [update_one_set_split pre post old _ v hpre hold]
  · rw [List.countP_append, List.countP_cons]
    have h0 : pre.countP (fun e => decide (sourceKey e = v)) = 0 := by
      rw [List.countP_eq_zero]
      intro e he
      simpa using hpre e he
    have h1 : post.countP (fun e => decide (sourceKey e = v)) = 0 := by
      rw [List.countP_eq_zero]
      intro e he
      simpa using hpost e he
    simp [h0, h1, hmerged_key]
  · intro k w hw
    exact getField_applySet_mem _ old k w hnd hw
  · intro k hk
    exact getField_applySet_not_mem _ old k hk

/-- Witness for the amended C1 at a concrete conflicting write. -/
theorem storage_conflict_set_merge_witness :
    mongoProcessItem [docOld] itemNew "T"
      = .ok [applySet docOld (stampDoc itemNew "T")] :=
  (storage_conflict_set_merge [] [] docOld itemNew "T" (BsonValue.str "u")
    (by unfold keysNodup; decide) (by decide) (by decide) (by simp) (by simp)).1

/-! ### Pagination harvester -/

theorem addUrls_spec (limit : Nat) (urls : List String) :
    ∀ seen ordered, HInv seen ordered →
      HInv (addUrls limit urls seen ordered).1 (addUrls limit urls seen ordered).2
      ∧ ∃ t, (addUrls limit urls seen ordered).2 = ordered ++ t := by
  induction urls with
  | nil =>
    intro seen ordered h
    exact ⟨h, [], by simp [addUrls]⟩
  | cons u rest ih =>
    intro seen ordered h
    by_cases hu : u ∈ seen
    · simpa [addUrls, hu] using ih seen ordered h
    · have hno : u ∉ ordered := fun hmem => hu ((h.2 u).mpr hmem)
      have hinv2 : HInv (insert u seen) (ordered ++ [u]) := by
        constructor
        · rw [List.nodup_append]
          refine ⟨h.1, List.nodup_singleton u, ?_⟩
          intro a ha hb
          rw [List.mem_singleton] at hb
          exact hno (hb ▸ ha)
        · intro x
          rw [Finset.mem_insert, List.mem_append, List.mem_singleton, h.2 x]
          tauto
      by_cases hl : limit ≤ (ordered ++ [u]).length
      · have e : addUrls limit (u :: rest) seen ordered = (insert u seen, ordered ++ [u]) := by
          simp only [addUrls]
          rw [if_neg hu, if_pos hl]
        rw [e]
        exact ⟨hinv2, [u], rfl⟩
      · have e : addUrls limit (u :: rest) seen ordered
            = addUrls limit rest (insert u seen) (ordered ++ [u]) := by
          simp only [addUrls]
          rw [if_neg hu, if_neg hl]
        obtain ⟨hi, t, ht⟩ := ih (insert u seen) (ordered ++ [u]) hinv2
        rw [e]
        exact ⟨hi, [u] ++ t, by rw [ht, List.append_assoc]⟩

theorem roundStep_broke (limit : Nat) (env : RoundEnv) (st st2 : HarvestState)
    (h : roundStep limit env st = .broke st2) : st2 = st := by
  obtain ⟨ac, click, cr, dom⟩ := env
  cases ac <;> cases click <;> cases cr <;> simp [roundStep] at h <;> exact h.symm

theorem roundStep_continued (limit : Nat) (env : RoundEnv) (st st2 : HarvestState)
    (h : roundStep limit env st = .continued st2) :
    st2.seen = (addUrls limit (collect_urls_from_dom env.domHrefs) st.seen st.ordered).1
    ∧ st2.ordered = (addUrls limit (collect_urls_from_dom env.domHrefs) st.seen st.ordered).2
    ∧ st2.clicks = st.clicks + 1
    ∧ st2.stalls = (if st2.ordered.length = st.ordered.length then st.stalls + 1 else 0) := by
  obtain ⟨ac, click, cr, dom⟩ := env
  cases ac <;> cases click <;> cases cr <;> simp [roundStep] at h
  obtain rfl := h.symm
  simp

theorem roundStep_continued_inv (limit : Nat) (env : RoundEnv) (st st2 : HarvestState)
    (hinv : HInv st.seen st.ordered)
    (h : roundStep limit env st = .continued st2) :
    HInv st2.seen st2.ordered ∧ ∃ t, st2.ordered = st.ordered ++ t := by
  obtain ⟨hs, ho, _, _⟩ := roundStep_continued limit env st st2 h
  obtain ⟨hi, t, ht⟩ :=
    addUrls_spec limit (collect_urls_from_dom env.domHrefs) st.seen st.ordered hinv
  rw [hs, ho]
  exact ⟨hi, t, ht⟩

theorem runLoop_inv (limit maxClicks stallLim : Nat) (env : Nat → RoundEnv) :
    ∀ fuel st st2 r, HInv st.seen st.ordered →
      runLoop limit maxClicks stallLim env fuel st = .ok (st2, r) →
      HInv st2.seen st2.ordered := by
  intro fuel
  induction fuel with
  | zero =>
    intro st st2 r hinv hrun
    by_cases hc : loopCond limit maxClicks stallLim st = true
    · simp [runLoop, hc] at hrun
      exact hrun.1 ▸ hinv
    · simp [runLoop, hc] at hrun
      exact hrun.1 ▸ hinv
  | succ fuel ih =>
    intro st st2 r hinv hrun
    by_cases hc : loopCond limit maxClicks stallLim st = true
    · rw [runLoop, if_pos hc] at hrun
      cases hrs : roundStep limit (env st.clicks) st with
      | raised => rw [hrs] at hrun; cases hrun
      | broke stB =>
        rw [hrs] at hrun
        have hbs : stB = st2 := by cases hrun; rfl
        have hst : stB = st := roundStep_broke limit (env st.clicks) st stB hrs
        rw [← hbs, hst]
        exact hinv
      | continued stC =>
        rw [hrs] at hrun
        exact ih stC st2 r
          (roundStep_continued_inv limit (env st.clicks) st stC hinv hrs).1 hrun
    · simp [runLoop, hc] at hrun
      exact hrun.1 ▸ hinv

theorem exitReasonOf_ne_fuelOut (limit maxClicks : Nat) (st : HarvestState) :
    exitReasonOf limit maxClicks st ≠ ExitReason.fuelOut := by
  unfold exitReasonOf
  split
  · simp
  · split <;> simp

theorem exitReasonOf_target (limit maxClicks : Nat) (st : HarvestState)
    (h : exitReasonOf limit maxClicks st = ExitReason.targetReached) :
    limit ≤ st.ordered.length := by
  unfold exitReasonOf at h
  by_cases h1 : limit ≤ st.ordered.length
  · exact h1
  · rw [if_neg h1] at h
    split at h <;> cases h

theorem runLoop_reason (limit maxClicks stallLim : Nat) (env : Nat → RoundEnv) :
    ∀ fuel st st2 r, runLoop limit maxClicks stallLim env fuel st = .ok (st2, r) →
      r = ExitReason.controlGone ∨ r = ExitReason.fuelOut
      ∨ r = exitReasonOf limit maxClicks st2 := by
  intro fuel
  induction fuel with
  | zero =>
    intro st st2 r hrun
    by_cases hc : loopCond limit maxClicks stallLim st = true
    · simp [runLoop, hc] at hrun
      exact Or.inr (Or.inl hrun.2.symm)
    · simp [runLoop, hc] at hrun
      exact Or.inr (Or.inr (hrun.1 ▸ hrun.2.symm))
  | succ fuel ih =>
    intro st st2 r hrun
    by_cases hc : loopCond limit maxClicks stallLim st = true
    · rw [runLoop, if_pos hc] at hrun
      cases hrs : roundStep limit (env st.clicks) st with
      | raised => rw [hrs] at hrun; cases hrun
      | broke stB =>
        rw [hrs] at hrun
        cases hrun
        exact Or.inl rfl
      | continued stC =>
        rw [hrs] at hrun
        exact ih stC st2 r hrun
    · simp [runLoop, hc] at hrun
      exact Or.inr (Or.inr (hrun.1 ▸ hrun.2.symm))

theorem runLoop_no_fuelOut (limit maxClicks stallLim : Nat) (env : Nat → RoundEnv) :
    ∀ fuel st st2 r, maxClicks < st.clicks + fuel →
      runLoop limit maxClicks stallLim env fuel st = .ok (st2, r) →
      r ≠ ExitReason.fuelOut := by
  intro fuel
  induction fuel with
  | zero =>
    intro st st2 r hfuel hrun
    by_cases hc : loopCond limit maxClicks stallLim st = true
    · have : st.clicks < maxClicks := by
        have := hc
        simp only [loopCond, Bool.and_eq_true, decide_eq_true_eq] at this
        exact this.1.2
      omega
    · simp [runLoop, hc] at hrun
      exact hrun.2 ▸ exitReasonOf_ne_fuelOut limit maxClicks st
  | succ fuel ih =>
    intro st st2 r hfuel hrun
    by_cases hc : loopCond limit maxClicks stallLim st = true
    · rw [runLoop, if_pos hc] at hrun
      cases hrs : roundStep limit (env st.clicks) st with
      | raised => rw [hrs] at hrun; cases hrun
      | broke stB =>
        rw [hrs] at hrun
        cases hrun
        simp
      | continued stC =>
        rw [hrs] at hrun
        have hclk : stC.clicks = st.clicks + 1 :=
          (roundStep_continued limit (env st.clicks) st stC hrs).2.2.1
        exact ih stC st2 r (by omega) hrun
    · simp [runLoop, hc] at hrun
      exact hrun.2 ▸ exitReasonOf_ne_fuelOut limit maxClicks st

theorem parse_list_eq (limit maxClicks stallLim : Nat) (env : ListingEnv)
    (hinit : env.initialCollectRaises = false) :
    parse_list limit maxClicks stallLim env =
      (match runLoop limit maxClicks stallLim env.rounds (maxClicks + 1)
          (HarvestState.mk
            (addUrls limit (collect_urls_from_dom env.initialHrefs) ∅ []).1
            (addUrls limit (collect_urls_from_dom env.initialHrefs) ∅ []).2 0 0) with
      | .error _ => ParseOutcome.mk (.error ()) false none
      | .ok (st, r) =>
        ParseOutcome.mk (.ok (st.ordered.take limit)) true (some r)) := by
  simp [parse_list, hinit]

/-- C5: the harvester's accumulated `ordered` sequence never holds a
duplicate normalized location: the invariant holds initially, is preserved
by the collection loop and by every completed round (which only appends,
keeping strict discovery order), and under it the cardinality of `seen`
always equals the length of `ordered`. -/
theorem harvest_no_duplicates :
    HInv (∅ : Finset String) []
    ∧ (∀ limit urls seen ordered, HInv seen ordered →
        HInv (addUrls limit urls seen ordered).1 (addUrls limit urls seen ordered).2
        ∧ ∃ t, (addUrls limit urls seen ordered).2 = ordered ++ t)
    ∧ (∀ limit env st st2, HInv st.seen st.ordered →
        roundStep limit env st = RoundResult.continued st2 →
        HInv st2.seen st2.ordered ∧ ∃ t, st2.ordered = st.ordered ++ t)
    ∧ (∀ seen ordered, HInv seen ordered → seen.card = ordered.length) := by
  refine ⟨⟨List.nodup_nil, by simp⟩, addUrls_spec, ?_, ?_⟩
  · intro limit env st st2 hinv h
    exact roundStep_continued_inv limit env st st2 hinv h
  · intro seen ordered h
    have hset : seen = ordered.toFinset := by
      apply Finset.ext
      intro x
      rw [List.mem_toFinset]
      exact h.2 x
    rw [hset, List.toFinset_card_of_nodup h.1]

/-- Witness for C5 at a concrete accumulation. -/
theorem harvest_no_duplicates_witness :
    (addUrls 5 ["a", "b", "a"] ∅ []).2 = ["a", "b"]
    ∧ HInv (addUrls 5 ["a", "b", "a"] ∅ []).1 (addUrls 5 ["a", "b", "a"] ∅ []).2 :=
  ⟨by decide,
    (harvest_no_duplicates.2.1 5 ["a", "b", "a"] ∅ [] harvest_no_duplicates.1).1⟩

/-- C6: a traversal that returns normally yields at most the requested
count; it yields strictly fewer only when the loop ended because the
reveal control was gone or non-actionable, the click ceiling was hit, or
the stall limit was hit. -/
theorem harvest_at_most_target (limit maxClicks stallLim : Nat) (env : ListingEnv)
    (urls : List String)
    (h : (parse_list limit maxClicks stallLim env).result = .ok urls) :
    urls.length ≤ limit
    ∧ (urls.length < limit →
        (parse_list limit maxClicks stallLim env).exitReason
            = some ExitReason.controlGone
        ∨ (parse_list limit maxClicks stallLim env).exitReason
            = some ExitReason.clickCeilingHit
        ∨ (parse_list limit maxClicks stallLim env).exitReason
            = some ExitReason.stallLimitHit) := by
  by_cases hinit : env.initialCollectRaises = true
  · simp [parse_list, hinit] at h
  · have hinit2 : env.initialCollectRaises = false := by
      simpa using hinit
    rw [parse_list_eq limit maxClicks stallLim env hinit2] at h ⊢
    cases hrun : runLoop limit maxClicks stallLim env.rounds (maxClicks + 1)
        (HarvestState.mk
          (addUrls limit (collect_urls_from_dom env.initialHrefs) ∅ []).1
          (addUrls limit (collect_urls_from_dom env.initialHrefs) ∅ []).2 0 0) with
    | error e =>
      rw [hrun] at h
      simp at h
    | ok p =>
      obtain ⟨st, r⟩ := p
      rw [hrun] at h
      dsimp only at h ⊢
      have hurls : urls = st.ordered.take limit := by
        cases h; rfl
      constructor
      · rw [hurls, List.length_take]
        exact Nat.min_le_left _ _
      · intro hlt
        have hr := runLoop_reason limit maxClicks stallLim env.rounds _ _ _ _ hrun
        have hnf := runLoop_no_fuelOut limit maxClicks stallLim env.rounds _ _ _ _
          (by omega) hrun
        rcases hr with hr | hr | hr
        · exact Or.inl (by simp [hr])
        · exact absurd hr hnf
        · have hnt : r ≠ ExitReason.targetReached := by
            intro ht
            have hlen : limit ≤ st.ordered.length :=
              exitReasonOf_target limit maxClicks st (hr ▸ ht)
            rw [hurls, List.length_take] at hlt
            omega
          rw [hr] at hnt ⊢
          unfold exitReasonOf at hnt ⊢
          by_cases h1 : limit ≤ st.ordered.length
          · exact absurd (by rw [if_pos h1]) hnt
          · rw [if_neg h1]
            by_cases h2 : maxClicks ≤ st.clicks
            · rw [if_pos h2]
              exact Or.inr (Or.inl rfl)
            · rw [if_neg h2]
              exact Or.inr (Or.inr rfl)

/-- Witness for C6: a traversal whose control disappears after one short
initial collection returns fewer than requested with the control-gone
exit reason. -/
theorem harvest_at_most_target_witness :
    (["https://www.kp.ru/online/news/1/"] : List String).length ≤ 2
    ∧ ((parse_list 2 10 10 envControlGone).exitReason = some ExitReason.controlGone
      ∨ (parse_list 2 10 10 envControlGone).exitReason = some ExitReason.clickCeilingHit
      ∨ (parse_list 2 10 10 envControlGone).exitReason = some ExitReason.stallLimitHit) := by
  have h := harvest_at_most_target 2 10 10 envControlGone
    ["https://www.kp.ru/online/news/1/"] rfl
  exact ⟨h.1, h.2 (by decide)⟩

/-- C7: in every completed round, adding zero new unique locations
increments the stall counter by exactly one, adding at least one resets it
to zero, and the loop guard holds exactly when the target is unmet, the
click count is below the ceiling, and the stall count below the limit. -/
theorem stall_counter_rules (limit maxClicks stallLim : Nat) (env : RoundEnv)
    (st st2 : HarvestState)
    (hc : roundStep limit env st = RoundResult.continued st2) :
    (st2.ordered.length = st.ordered.length → st2.stalls = st.stalls + 1)
    ∧ (st2.ordered.length ≠ st.ordered.length → st2.stalls = 0)
    ∧ (loopCond limit maxClicks stallLim st2 = true ↔
        (st2.ordered.length < limit ∧ st2.clicks < maxClicks
          ∧ st2.stalls < stallLim)) := by
  obtain ⟨_, _, _, hst⟩ := roundStep_continued limit env st st2 hc
  refine ⟨?_, ?_, ?_⟩
  · intro heq
    rw [hst, if_pos heq]
  · intro hne
    rw [hst, if_neg hne]
  · simp [loopCond, Bool.and_eq_true, decide_eq_true_eq, and_assoc]

/-- Witness for C7: a concrete stalled round increments the counter from
0 to 1. -/
theorem stall_counter_rules_witness : st1.stalls = st0.stalls + 1 :=
  (stall_counter_rules 5 10 10 roundStall st0 st1 rfl).1 rfl

/-- C4 counterexample: an exception raised by an unwrapped page operation
during a round propagates out of the traversal without `page.close()`
being invoked. -/
theorem page_close_skipped_on_error_cex :
    (parse_list 5 10 10 envRaise).result = .error ()
    ∧ (parse_list 5 10 10 envRaise).pageCloseCalled = false :=
  ⟨rfl, rfl⟩

/-- C4 (amended): `page.close()` is invoked exactly on the normal exit
paths (target reached, control gone, click ceiling, stall limit); when an
exception propagates out of the initial collection or a round, the
traversal ends without the close being invoked. -/
theorem page_close_iff_normal_exit (limit maxClicks stallLim : Nat)
    (env : ListingEnv) :
    (parse_list limit maxClicks stallLim env).pageCloseCalled
      = isOkResult (parse_list limit maxClicks stallLim env).result := by
  by_cases hinit : env.initialCollectRaises = true
  · simp [parse_list, hinit, isOkResult]
  · rw [parse_list_eq limit maxClicks stallLim env (by simpa using hinit)]
    cases hrun : runLoop limit maxClicks stallLim env.rounds (maxClicks + 1)
        (HarvestState.mk
          (addUrls limit (collect_urls_from_dom env.initialHrefs) ∅ []).1
          (addUrls limit (collect_urls_from_dom env.initialHrefs) ∅ []).2 0 0) with
    | error e => simp [isOkResult]
    | ok p =>
      obtain ⟨st, r⟩ := p
      simp [isOkResult]

end KP
